import Mathlib

/-!
Shallow embedding of `src/limit_order_book.py` (classes `Order`,
`LimitOrderBook`, named tuple `OrderUpdate`) together with theorems checking
the natural-language specification of the repository against it.

Modelling conventions, chosen to mirror the source exactly:

* Python `Decimal` prices and sizes are exact decimal quantities; they are
  modelled as rationals (`ℚ`).
* A `SortedDict` side of the book is modelled as an association list
  `List (ℚ × Level)` kept in strictly DESCENDING key order, so that the head
  of the list is the entry returned by `SortedDict.peekitem()` (whose default
  index `-1` yields the entry with the LARGEST key).  Bid prices are stored
  negated (`_convert_price`), exactly as in the source.
* Order status notifications (`owner.receive_update(...)`) are modelled by
  returning the list of `OrderUpdate` values fired, in firing order.  The
  `owner` field of an order is modelled by its Python truthiness (a `Bool`).
* Mutation of Python objects is modelled by explicit state passing: functions
  return the updated book and the updated incoming order.
* The match loop additionally returns a ghost rational accumulating the total
  size removed from the two orders involved in each matching step (the size
  "consumed into fills"); it instruments, without altering, the source's size
  mutations.
-/

set_option linter.unusedVariables false
set_option linter.unreachableTactic false
set_option linter.unusedTactic false

namespace LOB

/-- `OrderSide` enum of the source. -/
inductive OrderSide where
  | BUY
  | SELL
deriving DecidableEq

/-- `OrderStatus` enum of the source. -/
inductive OrderStatus where
  | CREATED
  | POSTED
  | PARTIALLY_FILLED
  | FILLED
  | CANCELLED
deriving DecidableEq

/-- `OrderSide.opposite` of the source. -/
def OrderSide.opposite : OrderSide → OrderSide
  | .BUY => .SELL
  | .SELL => .BUY

/-- The `Order` class of the source.  `owner` is the truthiness of the Python
`owner` reference (`none`/falsy owners are `false`), `order_id` is `none`
before the book assigns one. -/
structure Order where
  price : ℚ
  size : ℚ
  side : OrderSide
  owner : Bool
  status : OrderStatus
  order_id : Option Nat
deriving DecidableEq

/-- The `OrderUpdate` named tuple of the source: the order as delivered to the
owner (with the new status already set), the new status and the old status. -/
structure OrderUpdate where
  order : Order
  status : OrderStatus
  last_status : OrderStatus
deriving DecidableEq

/-- `Order.update_status`: set the new status and, if the owner is truthy,
fire one `OrderUpdate` to it.  Returns the updated order and the list of
notifications fired (empty or a singleton). -/
def update_status (o : Order) (new_status : OrderStatus) : Order × List OrderUpdate :=
  let old_status := o.status
  let o' := { o with status := new_status }
  (o', if o.owner then [⟨o', new_status, old_status⟩] else [])

/-- `Order.__init__` together with the `price` property setter: constructing
an order fails (`ValueError`) unless the price is a truthy number greater
than zero, i.e. unless it is present and positive (Python truthiness of
`Decimal` zero is folded into `0 < p`).  A freshly constructed order has
status `CREATED` and no identifier. -/
def mkOrder (price : Option ℚ) (size : ℚ) (side : OrderSide) (owner : Bool) :
    Except Unit Order :=
  match price with
  | some p =>
      if 0 < p then
        .ok { price := p, size := size, side := side, owner := owner,
              status := .CREATED, order_id := none }
      else
        .error ()
  | none => .error ()

/-- A price level: the FIFO deque of resting orders at one stored key
(head = front of the deque = earliest arrival). -/
abbrev Level := List Order

/-- One side of the book: the `SortedDict`, as an association list in strictly
descending key order, so its head is `peekitem()` (the largest key). -/
abbrev Side := List (ℚ × Level)

/-- Total number of resting orders on a side (termination measure of the
match loop). -/
def countOrders (s : Side) : Nat := (s.map (·.2.length)).sum

/-- Sum of the sizes of the orders of a level. -/
def sumLevel (l : Level) : ℚ := (l.map Order.size).sum

/-- Sum of the sizes of all resting orders on a side. -/
def sumSide (s : Side) : ℚ := (s.map (fun kv => sumLevel kv.2)).sum

/-- `side[p]` lookup: the level stored under key `p`, if any. -/
def findLevel (s : Side) (p : ℚ) : Option Level :=
  (s.find? (fun kv => decide (kv.1 = p))).map (·.2)

/-- Replace the level stored under key `p` (used for in-place deque mutation). -/
def setLevel : Side → ℚ → Level → Side
  | [], _, _ => []
  | (k, l) :: rest, p, lvl =>
      if k = p then (k, lvl) :: rest else (k, l) :: setLevel rest p lvl

/-- `del side[p]`: drop the level stored under key `p`. -/
def eraseLevel : Side → ℚ → Side
  | [], _ => []
  | (k, l) :: rest, p => if k = p then rest else (k, l) :: eraseLevel rest p

/-- `side.setdefault(p, deque()); side[p].append(order)`: append `o` at the
tail of the level under key `p`, creating the level if absent, keeping
descending key order. -/
def insertOrder : Side → ℚ → Order → Side
  | [], p, o => [(p, [o])]
  | (k, lvl) :: rest, p, o =>
      if p = k then (k, lvl ++ [o]) :: rest
      else if k < p then (p, [o]) :: (k, lvl) :: rest
      else (k, lvl) :: insertOrder rest p o

/-- `deque.remove(order)`: drop the first element equal to `o` (object
identity in Python; orders of one book are separated by their ids, so value
equality coincides with identity for them).  `none` models the `ValueError`
raised when `o` is absent. -/
def removeFirst : Level → Order → Option Level
  | [], _ => none
  | m :: ms, o => if m = o then some ms else (removeFirst ms o).map (m :: ·)

/-- The `LimitOrderBook` class.  `book_id` is assigned from the class counter
`nb_books` at construction; `order_count` backs `_new_order_id`. -/
structure LimitOrderBook where
  name : String
  book_id : Nat
  bids : Side
  asks : Side
  last_order : Option Order
  order_count : Nat
deriving DecidableEq

/-- `LimitOrderBook.__init__`: takes the current value of the class counter
`LimitOrderBook.nb_books`, increments it, and uses it as `book_id`; returns
the fresh book and the new counter value. -/
def mkBook (name : String) (nb_books : Nat) : LimitOrderBook × Nat :=
  ({ name := name, book_id := nb_books + 1, bids := [], asks := [],
     last_order := none, order_count := 0 }, nb_books + 1)

/-- `int(f"{bid}{n}")`: decimal-digit concatenation of `bid` and `n`.
For `n ≥ 1` the decimal representation of `n` has `Nat.log 10 n + 1` digits. -/
def concatId (bid n : Nat) : Nat := bid * 10 ^ (Nat.log 10 n + 1) + n

/-- `_new_order_id`: the id the book will assign to its next order, i.e. the
concatenation of `book_id` and the incremented `_order_count` (the increment
itself is performed by `add_order` below). -/
def new_order_id (b : LimitOrderBook) : Nat := concatId b.book_id (b.order_count + 1)

/-- `_convert_price`: the stored key of an order — its price for a SELL, its
negated price for a BUY. -/
def convert_price (o : Order) : ℚ :=
  if o.side = OrderSide.SELL then o.price else -o.price

/-- `_is_crossing`: compare the incoming price with the key of
`peekitem()` — the LARGEST stored key — of the opposite side.  For a BUY this
is the highest ask price; for a SELL, `-key` of the largest (least negative)
bid key, i.e. the lowest bid price. -/
def is_crossing (b : LimitOrderBook) (o : Order) : Bool :=
  match o.side with
  | .BUY =>
      match b.asks.head? with
      | some kv => decide (kv.1 ≤ o.price)
      | none => false
  | .SELL =>
      match b.bids.head? with
      | some kv => decide (o.price ≤ -kv.1)
      | none => false

/-- The `condition` closure of `_match` applied to `abs(top_price)`:
`order.price >= x` for a BUY, `order.price <= x` for a SELL. -/
def matchCond (o : Order) (x : ℚ) : Bool :=
  match o.side with
  | .BUY => decide (x ≤ o.price)
  | .SELL => decide (o.price ≤ x)

/-- The `while` loop of `_match`, acting on the opposite side.  Each
iteration peeks the entry with the largest key (the list head), takes the
head (`top_orders[0]`) of its deque and branches on
`diff = matching_order.size - order.size`, mutating sizes and statuses and
deleting emptied levels exactly as the source does.  Returns the updated
incoming order, the updated side, the notifications fired (in order) and the
ghost total of the size decrements applied to the two orders of each step.
The inner `[]` level case corresponds to an `IndexError` of `top_orders[0]`
in the source; it is unreachable for well-formed books and returns the state
unchanged. -/
def matchLoop (o : Order) : Side → Order × Side × List OrderUpdate × ℚ
  | [] => (o, [], [], 0)
  | (top_price, top_orders) :: rest =>
      if matchCond o |top_price| then
        match top_orders with
        | [] => (o, (top_price, top_orders) :: rest, [], 0)
        | matching_order :: ms =>
            if matching_order.size - o.size < 0 then
              ((matchLoop (update_status { o with size := o.size - matching_order.size }
                    .PARTIALLY_FILLED).1
                  (if ms = [] then rest else (top_price, ms) :: rest)).1,
               (matchLoop (update_status { o with size := o.size - matching_order.size }
                    .PARTIALLY_FILLED).1
                  (if ms = [] then rest else (top_price, ms) :: rest)).2.1,
               (update_status { o with size := o.size - matching_order.size }
                  .PARTIALLY_FILLED).2 ++
                 (update_status { matching_order with size := 0 } .FILLED).2 ++
                 (matchLoop (update_status { o with size := o.size - matching_order.size }
                      .PARTIALLY_FILLED).1
                    (if ms = [] then rest else (top_price, ms) :: rest)).2.2.1,
               matching_order.size + matching_order.size +
                 (matchLoop (update_status { o with size := o.size - matching_order.size }
                      .PARTIALLY_FILLED).1
                    (if ms = [] then rest else (top_price, ms) :: rest)).2.2.2)
            else if matching_order.size - o.size > 0 then
              ((update_status { o with size := 0 } .FILLED).1,
               (top_price, (update_status { matching_order with
                   size := matching_order.size - o.size } .PARTIALLY_FILLED).1 :: ms) :: rest,
               (update_status { matching_order with size := matching_order.size - o.size }
                  .PARTIALLY_FILLED).2 ++ (update_status { o with size := 0 } .FILLED).2,
               o.size + o.size)
            else
              ((update_status { o with size := 0 } .FILLED).1,
               (if ms = [] then rest else (top_price, ms) :: rest),
               (update_status { matching_order with size := 0 } .FILLED).2 ++
                 (update_status { o with size := 0 } .FILLED).2,
               matching_order.size + o.size)
      else (o, (top_price, top_orders) :: rest, [], 0)
termination_by s => countOrders s
decreasing_by
  all_goals (split <;> simp [countOrders] <;> omega)

/-- `_match`: run the loop on the side opposite to the incoming order and
store the updated side back into the book. -/
def lobMatch (b : LimitOrderBook) (o : Order) :
    LimitOrderBook × Order × List OrderUpdate × ℚ :=
  if o.side = OrderSide.BUY then
    let r := matchLoop o b.asks
    ({ b with asks := r.2.1 }, r.1, r.2.2.1, r.2.2.2)
  else
    let r := matchLoop o b.bids
    ({ b with bids := r.2.1 }, r.1, r.2.2.1, r.2.2.2)

/-- `add_order`: assign a fresh id (incrementing `_order_count`), fire
`POSTED`, match if `_is_crossing`, then — if the residual size is nonzero —
append the order at the tail of the level for its own side at its stored key,
and record it as `last_order`.  (The source returns `True`; here the updated
book, the updated incoming order, the notifications and the ghost consumed
total are returned.) -/
def add_order (b : LimitOrderBook) (order : Order) :
    LimitOrderBook × Order × List OrderUpdate × ℚ :=
  let oid := new_order_id b
  let b1 := { b with order_count := b.order_count + 1 }
  let o1 := { order with order_id := some oid }
  let u := update_status o1 .POSTED
  let o2 := u.1
  let ev1 := u.2
  let r := if is_crossing b1 o2 then lobMatch b1 o2 else (b1, o2, [], 0)
  let b2 := r.1
  let o3 := r.2.1
  let b3 :=
    if o3.size ≠ 0 then
      if o3.side = OrderSide.BUY then
        { b2 with bids := insertOrder b2.bids (convert_price o3) o3 }
      else
        { b2 with asks := insertOrder b2.asks (convert_price o3) o3 }
    else b2
  ({ b3 with last_order := some o3 }, o3, ev1 ++ r.2.2.1, r.2.2.2)

/-- Result of `remove_order`: either success, or the `LOBUnknownOrderError`
raise; in the latter case the book and order are carried unchanged, mirroring
that the exception propagates before any mutation. -/
inductive RemoveResult where
  | ok (b : LimitOrderBook) (order : Order) (evs : List OrderUpdate)
  | unknown (b : LimitOrderBook) (order : Order)
deriving DecidableEq

/-- `remove_order`: locate the level under the order's stored key on its own
side; drop the first occurrence of the order from its deque; delete the level
if it became empty; fire `CANCELLED`.  If the level or the order is absent,
raise `LOBUnknownOrderError` with nothing mutated. -/
def remove_order (b : LimitOrderBook) (order : Order) : RemoveResult :=
  let p := convert_price order
  let isBuy := order.side = OrderSide.BUY
  let side := if isBuy then b.bids else b.asks
  match findLevel side p with
  | none => .unknown b order
  | some lvl =>
      match removeFirst lvl order with
      | none => .unknown b order
      | some lvl' =>
          let side' := if lvl' = [] then eraseLevel side p else setLevel side p lvl'
          let b' := if isBuy then { b with bids := side' } else { b with asks := side' }
          let u := update_status order .CANCELLED
          .ok b' u.1 u.2

/-- The order is currently resting in the book, in the level for its side and
stored key. -/
def IsResting (b : LimitOrderBook) (o : Order) : Prop :=
  ∃ lvl, findLevel (if o.side = OrderSide.BUY then b.bids else b.asks)
      (convert_price o) = some lvl ∧ o ∈ lvl

/-- All resting orders of a side, best-key-last order. -/
def ordersOf (s : Side) : List Order := s.foldr (fun kv acc => kv.2 ++ acc) []

/-- Total resting size of the book. -/
def sumBook (b : LimitOrderBook) : ℚ := sumSide b.bids + sumSide b.asks

/-- First resting order carrying the given id, searching bids then asks. -/
def findOrder (b : LimitOrderBook) (oid : Nat) : Option Order :=
  (ordersOf b.bids ++ ordersOf b.asks).find? (fun m => decide (m.order_id = some oid))

/-- One client action against a book: submit a fresh order (constructed with
the given price, size, side and owner truthiness) or cancel, passing the
current state of the previously submitted resting order with the given id
(the caller's reference aliases the book's object). -/
inductive Action where
  | submit (price size : ℚ) (side : OrderSide) (owner : Bool)
  | cancel (oid : Nat)

/-- A book together with the ghost accounting of the conservation law:
total size ever submitted, total residual size at cancellation times, and
total size consumed into fills (counting both orders of each matching step). -/
structure SysState where
  book : LimitOrderBook
  submitted : ℚ
  cancelled : ℚ
  consumed : ℚ

/-- Run one action.  A cancel whose id is not resting raises
`LOBUnknownOrderError` in the source and leaves the state unchanged. -/
def stepA (s : SysState) : Action → SysState
  | .submit p sz sd ow =>
      let o : Order := { price := p, size := sz, side := sd, owner := ow,
                         status := .CREATED, order_id := none }
      let r := add_order s.book o
      { book := r.1, submitted := s.submitted + sz, cancelled := s.cancelled,
        consumed := s.consumed + r.2.2.2 }
  | .cancel oid =>
      match findOrder s.book oid with
      | none => s
      | some o =>
          match remove_order s.book o with
          | .ok b' _ _ =>
              { book := b', submitted := s.submitted,
                cancelled := s.cancelled + o.size, consumed := s.consumed }
          | .unknown _ _ => s

/-- Run a sequence of actions from a state. -/
def runActions (s : SysState) : List Action → SysState
  | [] => s
  | a :: acts => runActions (stepA s a) acts

/-- The initial system state: a fresh book (first instance created, class
counter at 0) and zeroed accounting. -/
def initState : SysState :=
  { book := (mkBook "book" 0).1, submitted := 0, cancelled := 0, consumed := 0 }

/-- A submit action carries a valid order: positive price and positive size
(the inputs `add_order` is specified for). -/
def validAction : Action → Prop
  | .submit p sz _ _ => 0 < p ∧ 0 < sz
  | .cancel _ => True

instance : DecidablePred validAction := by
  intro a
  cases a <;> simp [validAction] <;> infer_instance

/-- Well-formedness of one side: no empty level persists, every resting order
has positive size and the side matching the collection. -/
def wfSide (sd : OrderSide) (s : Side) : Prop :=
  ∀ kv ∈ s, kv.2 ≠ [] ∧ ∀ m ∈ kv.2, 0 < m.size ∧ m.side = sd

/-- Keys of a side are strictly descending (the `SortedDict` order with the
head as largest key). -/
def sortedSide (s : Side) : Prop := (s.map (·.1)).Pairwise (· > ·)

/-- The three conditions the spec claims invariant: no empty level persists,
every resting order has positive size, and every order sits in the collection
matching its own side. -/
def wfClaim (b : LimitOrderBook) : Prop :=
  wfSide .BUY b.bids ∧ wfSide .SELL b.asks

/-- Modelled from the spec: "asks ordered so the lowest price is best" — the
best ask price, i.e. the smallest ask key (the LAST entry of the descending
list).  Used only to compare the source's `peekitem()`-based choice against
the spec's notion of best. -/
def specBestAsk (b : LimitOrderBook) : Option ℚ := b.asks.getLast?.map (·.1)

/-- Modelled from the spec: "bids are ordered so the highest price is best" —
the best bid price, i.e. the negation of the smallest stored bid key. -/
def specBestBid (b : LimitOrderBook) : Option ℚ := b.bids.getLast?.map (fun kv => -kv.1)

/-! ### Helper lemmas -/

theorem log10_eq_zero {n : ℕ} (h : n < 10) : Nat.log 10 n = 0 :=
  Nat.log_eq_zero_iff.mpr (Or.inl h)

theorem concatId_of_lt_ten {b n : ℕ} (h : n < 10) : concatId b n = b * 10 + n := by
  simp [concatId, log10_eq_zero h]

theorem concatId_of_two_digits {b n : ℕ} (h1 : 10 ≤ n) (h2 : n < 100) :
    concatId b n = b * 100 + n := by
  have hl : Nat.log 10 n = 1 :=
    Nat.log_eq_of_pow_le_of_lt_pow (by simpa using h1) (by simpa using h2)
  norm_num [concatId, hl]

/-- A fresh book used by the concrete scenarios (first instance created:
`book_id = 1`, so assigned order ids run 11, 12, 13, …). -/
def bk0 : LimitOrderBook := (mkBook "venue" 0).1

/-! ### C8: order construction validates the price -/

/-- C8: constructing an `Order` (the price setter) fails exactly when the
price is missing or non-positive; for a positive price it succeeds and the
constructed order has status `CREATED`, no identifier, and the given fields. -/
theorem mkOrder_ok_iff (price : Option ℚ) (size : ℚ) (side : OrderSide) (owner : Bool) :
    ((∃ o, mkOrder price size side owner = .ok o) ↔ ∃ p, price = some p ∧ 0 < p) ∧
    (∀ p, price = some p → 0 < p →
      mkOrder price size side owner =
        .ok { price := p, size := size, side := side, owner := owner,
              status := .CREATED, order_id := none }) := by
  constructor
  · constructor
    · rintro ⟨o, ho⟩
      cases price with
      | none => simp [mkOrder] at ho
      | some p =>
          refine ⟨p, rfl, ?_⟩
          by_cases h : 0 < p
          · exact h
          · simp [mkOrder, h] at ho
    · rintro ⟨p, rfl, hp⟩
      refine ⟨{ price := p, size := size, side := side, owner := owner,
                status := .CREATED, order_id := none }, ?_⟩
      simp [mkOrder, hp]
  · rintro p rfl hp
    simp [mkOrder, hp]

/-- Witness for C8 at a concrete positive and a concrete missing price. -/
theorem mkOrder_ok_iff_witness :
    mkOrder (some 102) 1 OrderSide.BUY true =
      .ok { price := 102, size := 1, side := OrderSide.BUY, owner := true,
            status := .CREATED, order_id := none } :=
  (mkOrder_ok_iff (some 102) 1 OrderSide.BUY true).2 102 rfl (by norm_num)

/-! ### C10: notifications are delivered only to truthy owners -/

@[simp] theorem ordersOf_nil : ordersOf [] = [] := rfl

@[simp] theorem ordersOf_cons (k : ℚ) (lvl : Level) (rest : Side) :
    ordersOf ((k, lvl) :: rest) = lvl ++ ordersOf rest := rfl

/-- With a falsy incoming owner and only falsy resting owners the match loop
fires no notification at all. -/
theorem matchLoop_no_events (o : Order) (opp : Side)
    (ho : o.owner = false) (hall : ∀ m ∈ ordersOf opp, m.owner = false) :
    (matchLoop o opp).2.2.1 = [] := by
  induction o, opp using matchLoop.induct with
  | case1 o => simp [matchLoop]
  | case2 o tp rest hc => simp [matchLoop, hc]
  | case3 o tp rest hc mo ms hd ih =>
      have hlt : mo.size < o.size := by linarith [hd]
      have hmo : mo.owner = false := hall mo (by simp)
      have hall' :
          ∀ m ∈ ordersOf (if ms = [] then rest else (tp, ms) :: rest),
            m.owner = false := by
        intro m hm
        apply hall
        by_cases h : ms = [] <;> simp_all
      have hrec : (matchLoop
          (update_status { o with size := o.size - mo.size }
            OrderStatus.PARTIALLY_FILLED).1
          (if ms = [] then rest else (tp, ms) :: rest)).2.2.1 = [] :=
        ih (by
          show (update_status { o with size := o.size - mo.size }
            OrderStatus.PARTIALLY_FILLED).1.owner = false
          simp [update_status, ho]) hall'
      have hev1 : (update_status { o with size := o.size - mo.size }
          OrderStatus.PARTIALLY_FILLED).2 = [] := by simp [update_status, ho]
      have hev2 : (update_status { mo with size := 0 }
          OrderStatus.FILLED).2 = [] := by simp [update_status, hmo]
      simp [matchLoop, hc, hlt, hrec, hev1, hev2]
  | case4 o tp rest hc mo ms hd1 hd2 =>
      have hnlt : ¬mo.size < o.size := by intro h; exact hd1 (by linarith)
      have hlt2 : o.size < mo.size := by linarith [hd2]
      have hmo : mo.owner = false := hall mo (by simp)
      have hev1 : (update_status { mo with size := mo.size - o.size }
          OrderStatus.PARTIALLY_FILLED).2 = [] := by simp [update_status, hmo]
      have hev2 : (update_status { o with size := 0 }
          OrderStatus.FILLED).2 = [] := by simp [update_status, ho]
      simp [matchLoop, hc, hnlt, hlt2, hev1, hev2]
  | case5 o tp rest hc mo ms hd1 hd2 =>
      have h1 : ¬mo.size - o.size < 0 := hd1
      have h2 : ¬mo.size - o.size > 0 := hd2
      have hmo : mo.owner = false := hall mo (by simp)
      have hev1 : (update_status { mo with size := 0 }
          OrderStatus.FILLED).2 = [] := by simp [update_status, hmo]
      have hev2 : (update_status { o with size := 0 }
          OrderStatus.FILLED).2 = [] := by simp [update_status, ho]
      simp [matchLoop, hc, show ¬mo.size < o.size by linarith,
        show ¬o.size < mo.size by linarith, hev1, hev2]
  | case6 o tp tos rest hc =>
      cases tos <;> simp [matchLoop, hc]

/-- C10: a status transition always records the new status on the order, but
an order whose owner is falsy delivers no notification at any transition
performed by submission, matching or cancellation; the one-`OrderUpdate`-per-
transition guarantee holds exactly for truthy owners. -/
theorem falsy_owner_gets_no_notifications :
    (∀ (o : Order) (ns : OrderStatus),
        (update_status o ns).1.status = ns ∧
        (o.owner = false → (update_status o ns).2 = []) ∧
        (o.owner = true →
          (update_status o ns).2 = [⟨(update_status o ns).1, ns, o.status⟩])) ∧
    (∀ (b : LimitOrderBook) (o : Order), o.owner = false →
        (∀ m ∈ ordersOf b.bids ++ ordersOf b.asks, m.owner = false) →
        (add_order b o).2.2.1 = []) ∧
    (∀ (b : LimitOrderBook) (o : Order) (b' : LimitOrderBook) (o' : Order)
        (evs : List OrderUpdate), o.owner = false →
        remove_order b o = .ok b' o' evs → evs = []) := by
  refine ⟨?_, ?_, ?_⟩
  · intro o ns
    refine ⟨by simp [update_status], ?_, ?_⟩ <;> intro h <;> simp [update_status, h]
  · intro b o ho hall
    have hbids : ∀ m ∈ ordersOf b.bids, m.owner = false := by
      intro m hm; exact hall m (by simp [hm])
    have hasks : ∀ m ∈ ordersOf b.asks, m.owner = false := by
      intro m hm; exact hall m (by simp [hm])
    simp only [add_order]
    set o2 := (update_status { o with order_id := some (new_order_id b) }
      OrderStatus.POSTED).1 with ho2
    have ho2f : o2.owner = false := by simp [ho2, update_status, ho]
    have hev1 : (update_status { o with order_id := some (new_order_id b) }
        OrderStatus.POSTED).2 = [] := by simp [update_status, ho]
    split
    · simp only [lobMatch]
      split
      · simp [hev1, matchLoop_no_events o2 _ ho2f hasks]
      · simp [hev1, matchLoop_no_events o2 _ ho2f hbids]
    · simp [hev1]
  · intro b o b' o' evs ho hrem
    simp only [remove_order] at hrem
    split at hrem
    · exact absurd hrem (by simp)
    · split at hrem
      · exact absurd hrem (by simp)
      · simp only [RemoveResult.ok.injEq] at hrem
        rcases hrem with ⟨-, -, hevs⟩
        simp [← hevs, update_status, ho]

/-- Witness for C10: a falsy-owner order posted to a fresh empty book changes
status to `POSTED` yet fires no notification. -/
theorem falsy_owner_gets_no_notifications_witness :
    (add_order bk0
        { price := 5, size := 1, side := OrderSide.BUY, owner := false,
          status := OrderStatus.CREATED, order_id := none }).2.2.1 = [] :=
  falsy_owner_gets_no_notifications.2.1 bk0 _ rfl (by simp [bk0, mkBook])

/-! ### C6: partial fill postcondition -/

@[simp] theorem SELL_ne_BUY : OrderSide.SELL ≠ OrderSide.BUY :=
  fun h => OrderSide.noConfusion h

@[simp] theorem BUY_ne_SELL : OrderSide.BUY ≠ OrderSide.SELL :=
  fun h => OrderSide.noConfusion h

theorem log10_one : Nat.log 10 1 = 0 := Nat.log_one_right 10

theorem log10_two : Nat.log 10 2 = 0 := log10_eq_zero (by norm_num)

theorem log10_three : Nat.log 10 3 = 0 := log10_eq_zero (by norm_num)

/-- C6: on a book whose only resting order is a SELL of size 0.7 at price
102, submitting a BUY of size 0.5 at price 102 leaves the resting order
PARTIALLY_FILLED with size 0.2 still resting at level 102 (the level is not
deleted), and leaves the incoming order FILLED with size 0 and resting
nowhere in the book. -/
theorem partial_fill_postcondition :
    (add_order (add_order bk0
        { price := 102, size := 0.7, side := OrderSide.SELL, owner := true,
          status := OrderStatus.CREATED, order_id := none }).1
        { price := 102, size := 0.5, side := OrderSide.BUY, owner := true,
          status := OrderStatus.CREATED, order_id := none }).1.asks =
      [(102, [{ price := 102, size := 0.2, side := OrderSide.SELL, owner := true,
                status := OrderStatus.PARTIALLY_FILLED, order_id := some 11 }])] ∧
    (add_order (add_order bk0
        { price := 102, size := 0.7, side := OrderSide.SELL, owner := true,
          status := OrderStatus.CREATED, order_id := none }).1
        { price := 102, size := 0.5, side := OrderSide.BUY, owner := true,
          status := OrderStatus.CREATED, order_id := none }).1.bids = [] ∧
    (add_order (add_order bk0
        { price := 102, size := 0.7, side := OrderSide.SELL, owner := true,
          status := OrderStatus.CREATED, order_id := none }).1
        { price := 102, size := 0.5, side := OrderSide.BUY, owner := true,
          status := OrderStatus.CREATED, order_id := none }).2.1 =
      { price := 102, size := 0, side := OrderSide.BUY, owner := true,
        status := OrderStatus.FILLED, order_id := some 12 } := by
  norm_num [bk0, mkBook, add_order, update_status, new_order_id, concatId,
    log10_one, log10_two, is_crossing, lobMatch, matchLoop, matchCond,
    insertOrder, convert_price]

/-! ### C1 and C2: the source works from `peekitem()`, the WORST opposite
level, not the best one -/

/-- A fresh SELL limit order of size 1 at the given price. -/
def sellAt (p : ℚ) : Order :=
  { price := p, size := 1, side := .SELL, owner := true,
    status := .CREATED, order_id := none }

/-- A fresh BUY limit order of size 1 at the given price. -/
def buyAt (p : ℚ) : Order :=
  { price := p, size := 1, side := .BUY, owner := true,
    status := .CREATED, order_id := none }

/-- A book holding two resting SELL orders: size 1 at 105 (id 11, submitted
first) and size 1 at 100 (id 12). -/
def bookAsks100and105 : LimitOrderBook :=
  (add_order (add_order bk0 (sellAt 105)).1 (sellAt 100)).1

/-- C1 (refuting the claim as stated): on a book with asks at 100 and 105,
the best (lowest) ask is 100 ≤ 102, yet `_is_crossing` — which compares
against `peekitem()`, the HIGHEST ask — answers `false` for a BUY at 102,
so the matching algorithm is not invoked and the order rests untouched. -/
theorem crossing_checks_worst_ask :
    bookAsks100and105.asks =
      [(105, [{ price := 105, size := 1, side := .SELL, owner := true,
                status := .POSTED, order_id := some 11 }]),
       (100, [{ price := 100, size := 1, side := .SELL, owner := true,
                status := .POSTED, order_id := some 12 }])] ∧
    specBestAsk bookAsks100and105 = some 100 ∧
    (buyAt 102).price = 102 ∧
    is_crossing bookAsks100and105 (buyAt 102) = false ∧
    (add_order bookAsks100and105 (buyAt 102)).1.asks = bookAsks100and105.asks ∧
    (add_order bookAsks100and105 (buyAt 102)).2.1.status = OrderStatus.POSTED ∧
    (add_order bookAsks100and105 (buyAt 102)).2.1.size = 1 ∧
    (add_order bookAsks100and105 (buyAt 102)).1.bids =
      [(-102, [{ price := 102, size := 1, side := .BUY, owner := true,
                 status := .POSTED, order_id := some 13 }])] := by
  norm_num [bookAsks100and105, sellAt, buyAt, bk0, mkBook, add_order,
    update_status, new_order_id, concatId, log10_one, log10_two, log10_three,
    is_crossing, lobMatch, matchLoop, matchCond, insertOrder, convert_price,
    specBestAsk]

/-- C2 (refuting the claim as stated): on the same book (asks at 100 and
105, best ask 100), an incoming BUY at 105 is matched against the resting
SELL at 105 — the WORST (highest) ask level, the one `peekitem()` returns —
while the best level at 100 is left untouched: the fired events show order
id 11 (price 105) filled, and the book keeps the id-12 SELL at 100. -/
theorem match_consumes_worst_level_first :
    specBestAsk bookAsks100and105 = some 100 ∧
    (add_order bookAsks100and105 (buyAt 105)).1.asks =
      [(100, [{ price := 100, size := 1, side := .SELL, owner := true,
                status := .POSTED, order_id := some 12 }])] ∧
    (add_order bookAsks100and105 (buyAt 105)).2.2.1 =
      [⟨{ price := 105, size := 1, side := .BUY, owner := true,
          status := .POSTED, order_id := some 13 }, .POSTED, .CREATED⟩,
       ⟨{ price := 105, size := 0, side := .SELL, owner := true,
          status := .FILLED, order_id := some 11 }, .FILLED, .POSTED⟩,
       ⟨{ price := 105, size := 0, side := .BUY, owner := true,
          status := .FILLED, order_id := some 13 }, .FILLED, .POSTED⟩] := by
  norm_num [bookAsks100and105, sellAt, buyAt, bk0, mkBook, add_order,
    update_status, new_order_id, concatId, log10_one, log10_two, log10_three,
    is_crossing, lobMatch, matchLoop, matchCond, insertOrder, convert_price,
    specBestAsk]

/-! ### C3: conservation of size -/

@[simp] theorem sumLevel_nil : sumLevel [] = 0 := rfl

@[simp] theorem sumLevel_cons (m : Order) (ms : Level) :
    sumLevel (m :: ms) = m.size + sumLevel ms := by
  simp [sumLevel]

@[simp] theorem sumLevel_append (l1 l2 : Level) :
    sumLevel (l1 ++ l2) = sumLevel l1 + sumLevel l2 := by
  simp [sumLevel]

@[simp] theorem sumSide_nil : sumSide [] = 0 := rfl

@[simp] theorem sumSide_cons (k : ℚ) (lvl : Level) (rest : Side) :
    sumSide ((k, lvl) :: rest) = sumLevel lvl + sumSide rest := by
  simp [sumSide]

/-- The match loop conserves size: resting size removed from the side plus
the residual of the incoming order plus nothing else accounts exactly for the
ghost consumed total. -/
theorem matchLoop_conserves (o : Order) (opp : Side) :
    sumSide (matchLoop o opp).2.1 + (matchLoop o opp).1.size +
        (matchLoop o opp).2.2.2 = sumSide opp + o.size := by
  induction o, opp using matchLoop.induct with
  | case1 o => simp [matchLoop]
  | case2 o tp rest hc => simp [matchLoop, hc]
  | case3 o tp rest hc mo ms hd ih =>
      have hlt : mo.size < o.size := by linarith [hd]
      have hih : sumSide (matchLoop
            (update_status { o with size := o.size - mo.size }
              OrderStatus.PARTIALLY_FILLED).1
            (if ms = [] then rest else (tp, ms) :: rest)).2.1 +
          (matchLoop (update_status { o with size := o.size - mo.size }
              OrderStatus.PARTIALLY_FILLED).1
            (if ms = [] then rest else (tp, ms) :: rest)).1.size +
          (matchLoop (update_status { o with size := o.size - mo.size }
              OrderStatus.PARTIALLY_FILLED).1
            (if ms = [] then rest else (tp, ms) :: rest)).2.2.2 =
          sumSide (if ms = [] then rest else (tp, ms) :: rest) +
            (update_status { o with size := o.size - mo.size }
              OrderStatus.PARTIALLY_FILLED).1.size := ih
      simp only [update_status] at hih
      by_cases hms : ms = [] <;>
        · simp only [hms, if_true, if_false, reduceIte] at hih ⊢ <;>
          simp [matchLoop, hc, hlt, update_status] <;>
          simp_all <;> linarith
  | case4 o tp rest hc mo ms hd1 hd2 =>
      have hnlt : ¬mo.size < o.size := by intro h; exact hd1 (by linarith)
      have hlt2 : o.size < mo.size := by linarith [hd2]
      simp [matchLoop, hc, hnlt, hlt2, update_status]
      ring
  | case5 o tp rest hc mo ms hd1 hd2 =>
      have heq : mo.size = o.size := by
        have h1 : ¬mo.size - o.size < 0 := hd1
        have h2 : ¬mo.size - o.size > 0 := hd2
        linarith
      by_cases hms : ms = [] <;>
        simp [matchLoop, hc, show ¬mo.size < o.size by linarith,
          show ¬o.size < mo.size by linarith, update_status, hms, heq] <;>
        ring
  | case6 o tp tos rest hc =>
      cases tos <;> simp [matchLoop, hc]

theorem sumSide_insertOrder (s : Side) (p : ℚ) (o : Order) :
    sumSide (insertOrder s p o) = sumSide s + o.size := by
  induction s with
  | nil => simp [insertOrder]
  | cons kv rest ih =>
      obtain ⟨k, lvl⟩ := kv
      by_cases h1 : p = k
      · simp [insertOrder, h1]; ring
      · by_cases h2 : k < p <;> simp [insertOrder, h1, h2, ih] <;> ring

theorem removeFirst_sum {lvl lvl' : Level} {o : Order}
    (h : removeFirst lvl o = some lvl') : sumLevel lvl = o.size + sumLevel lvl' := by
  induction lvl generalizing lvl' with
  | nil => simp [removeFirst] at h
  | cons m ms ih =>
      by_cases hm : m = o
      · simp [removeFirst, hm] at h
        subst hm
        simp [← h]
      · simp only [removeFirst, if_neg hm] at h
        rcases Option.map_eq_some'.mp h with ⟨ms', hms', rfl⟩
        simp [ih hms']
        ring

theorem sumSide_setLevel {s : Side} {p : ℚ} {lvl : Level} (lvl' : Level)
    (h : findLevel s p = some lvl) :
    sumSide (setLevel s p lvl') + sumLevel lvl = sumSide s + sumLevel lvl' := by
  induction s with
  | nil => simp [findLevel] at h
  | cons kv rest ih =>
      obtain ⟨k, l⟩ := kv
      by_cases hk : k = p
      · subst hk
        simp [findLevel] at h
        simp [setLevel, h]
        ring
      · have hf : (decide (k = p)) = false := by simpa using hk
        simp only [findLevel, List.find?_cons, hf] at h
        have hrec := ih (by simpa [findLevel] using h)
        simp [setLevel, hk]
        linarith

theorem sumSide_eraseLevel {s : Side} {p : ℚ} {lvl : Level}
    (h : findLevel s p = some lvl) :
    sumSide (eraseLevel s p) + sumLevel lvl = sumSide s := by
  induction s with
  | nil => simp [findLevel] at h
  | cons kv rest ih =>
      obtain ⟨k, l⟩ := kv
      by_cases hk : k = p
      · subst hk
        simp [findLevel] at h
        simp [eraseLevel, h]
        ring
      · have hf : (decide (k = p)) = false := by simpa using hk
        simp only [findLevel, List.find?_cons, hf] at h
        have hrec := ih (by simpa [findLevel] using h)
        simp [eraseLevel, hk]
        linarith

/-- The match loop only mutates the incoming order's size and status; price,
side, owner and id survive. -/
theorem matchLoop_fields (o : Order) (opp : Side) :
    (matchLoop o opp).1.price = o.price ∧ (matchLoop o opp).1.side = o.side ∧
    (matchLoop o opp).1.owner = o.owner ∧
    (matchLoop o opp).1.order_id = o.order_id := by
  induction o, opp using matchLoop.induct with
  | case1 o => simp [matchLoop]
  | case2 o tp rest hc => simp [matchLoop, hc]
  | case3 o tp rest hc mo ms hd ih =>
      have hlt : mo.size < o.size := by linarith [hd]
      have hih : (matchLoop (update_status { o with size := o.size - mo.size }
            OrderStatus.PARTIALLY_FILLED).1
            (if ms = [] then rest else (tp, ms) :: rest)).1.price =
              (update_status { o with size := o.size - mo.size }
                OrderStatus.PARTIALLY_FILLED).1.price ∧
          (matchLoop (update_status { o with size := o.size - mo.size }
            OrderStatus.PARTIALLY_FILLED).1
            (if ms = [] then rest else (tp, ms) :: rest)).1.side =
              (update_status { o with size := o.size - mo.size }
                OrderStatus.PARTIALLY_FILLED).1.side ∧
          (matchLoop (update_status { o with size := o.size - mo.size }
            OrderStatus.PARTIALLY_FILLED).1
            (if ms = [] then rest else (tp, ms) :: rest)).1.owner =
              (update_status { o with size := o.size - mo.size }
                OrderStatus.PARTIALLY_FILLED).1.owner ∧
          (matchLoop (update_status { o with size := o.size - mo.size }
            OrderStatus.PARTIALLY_FILLED).1
            (if ms = [] then rest else (tp, ms) :: rest)).1.order_id =
              (update_status { o with size := o.size - mo.size }
                OrderStatus.PARTIALLY_FILLED).1.order_id := ih
      simp only [update_status] at hih
      simp [matchLoop, hc, hlt, update_status, hih]
  | case4 o tp rest hc mo ms hd1 hd2 =>
      have hnlt : ¬mo.size < o.size := by intro h; exact hd1 (by linarith)
      have hlt2 : o.size < mo.size := by linarith [hd2]
      simp [matchLoop, hc, hnlt, hlt2, update_status]
  | case5 o tp rest hc mo ms hd1 hd2 =>
      have h1 : ¬mo.size - o.size < 0 := hd1
      have h2 : ¬mo.size - o.size > 0 := hd2
      simp [matchLoop, hc, show ¬mo.size < o.size by linarith,
        show ¬o.size < mo.size by linarith, update_status]
  | case6 o tp tos rest hc =>
      cases tos <;> simp [matchLoop, hc]

/-- `add_order` conserves size: the resting total afterwards plus the ghost
consumed total equals the resting total before plus the submitted size. -/
theorem add_order_conserves (b : LimitOrderBook) (o : Order) :
    sumBook (add_order b o).1 + (add_order b o).2.2.2 = sumBook b + o.size := by
  have hpost : (update_status { o with order_id := some (new_order_id b) }
      OrderStatus.POSTED).1 =
      { o with order_id := some (new_order_id b), status := OrderStatus.POSTED } := by
    simp [update_status]
  simp only [add_order, lobMatch, hpost]
  split
  · -- crossing: the matching loop ran on the opposite side
    split
    · -- BUY: loop on asks, possible rest on bids
      rename_i hside
      have hcons := matchLoop_conserves
        { o with order_id := some (new_order_id b), status := OrderStatus.POSTED } b.asks
      have hfld := matchLoop_fields
        { o with order_id := some (new_order_id b), status := OrderStatus.POSTED } b.asks
      split
      · simp_all [sumBook, sumSide_insertOrder]
        linarith
      · rename_i hz
        simp only [ne_eq, Decidable.not_not] at hz
        simp_all [sumBook]
        linarith
    · -- SELL: loop on bids, possible rest on asks
      rename_i hside
      have hcons := matchLoop_conserves
        { o with order_id := some (new_order_id b), status := OrderStatus.POSTED } b.bids
      have hfld := matchLoop_fields
        { o with order_id := some (new_order_id b), status := OrderStatus.POSTED } b.bids
      split
      · simp_all [sumBook, sumSide_insertOrder]
        linarith
      · rename_i hz
        simp only [ne_eq, Decidable.not_not] at hz
        simp_all [sumBook]
        linarith
  · -- not crossing: the order rests untouched (or has size 0 and vanishes)
    split
    · split <;> simp [sumBook, sumSide_insertOrder] <;> ring
    · rename_i hz
      simp only [ne_eq, Decidable.not_not] at hz
      simp [sumBook, hz]

/-- `remove_order` conserves size: on success the resting total shrinks by
exactly the cancelled order's residual size. -/
theorem remove_order_conserves {b b' : LimitOrderBook} {o o' : Order}
    {evs : List OrderUpdate} (h : remove_order b o = .ok b' o' evs) :
    sumBook b' + o.size = sumBook b := by
  simp only [remove_order] at h
  split at h
  · exact absurd h (by simp)
  · rename_i lvl hfind
    split at h
    · exact absurd h (by simp)
    · rename_i lvl' hrem
      have hsum := removeFirst_sum hrem
      split at h <;> rename_i hside <;>
        simp only [RemoveResult.ok.injEq] at h <;>
        rcases h with ⟨hb', -, -⟩ <;> subst hb'
      all_goals split <;> rename_i hempty
      · -- BUY, level emptied and deleted
        have := sumSide_eraseLevel (by simpa [hside] using hfind)
        simp_all [sumBook]
        linarith
      · have := sumSide_setLevel lvl' (by simpa [hside] using hfind)
        simp_all [sumBook]
        linarith
      · have hsd : o.side = OrderSide.SELL := by
          cases hs : o.side
          · exact absurd hs hside
          · rfl
        have := sumSide_eraseLevel (by simpa [hside] using hfind)
        simp_all [sumBook]
        linarith
      · have := sumSide_setLevel lvl' (by simpa [hside] using hfind)
        simp_all [sumBook]
        linarith

/-- The conservation ledger: resting total plus consumed equals submitted
minus cancelled. -/
def consInv (st : SysState) : Prop :=
  sumBook st.book + st.consumed = st.submitted - st.cancelled

theorem stepA_conserves (st : SysState) (a : Action) (h : consInv st) :
    consInv (stepA st a) := by
  cases a with
  | submit p sz sd ow =>
      have := add_order_conserves st.book
        { price := p, size := sz, side := sd, owner := ow,
          status := .CREATED, order_id := none }
      simp only [consInv, stepA] at h ⊢
      linarith
  | cancel oid =>
      simp only [consInv, stepA] at h ⊢
      cases hfo : findOrder st.book oid with
      | none => simpa using h
      | some o =>
          cases hrm : remove_order st.book o with
          | ok b' o' evs =>
              have := remove_order_conserves hrm
              simp only [hrm]
              linarith
          | unknown b2 o2 =>
              simp only [hrm]
              simpa using h

/-- C3: size is exactly conserved — for every sequence of submissions and
cancellations, at every intermediate state the resting total plus the total
size consumed into fills equals the total size ever submitted minus the total
residual size of cancelled orders at their cancellation times (each matching
step removes exactly the same amount from the incoming and the matched
resting order). -/
theorem size_conservation (acts : List Action) :
    sumBook (runActions initState acts).book +
        (runActions initState acts).consumed =
      (runActions initState acts).submitted -
        (runActions initState acts).cancelled := by
  suffices h : ∀ st, consInv st → consInv (runActions st acts) by
    exact h initState (by simp [consInv, initState, sumBook, mkBook, bk0])
  induction acts with
  | nil => intro st h; simpa [runActions] using h
  | cons a acts ih =>
      intro st h
      exact ih (stepA st a) (stepA_conserves st a h)


/-! ### C7: book well-formedness invariant -/

theorem findLevel_mem {s : Side} {p : ℚ} {lvl : Level}
    (h : findLevel s p = some lvl) : (p, lvl) ∈ s := by
  rcases Option.map_eq_some'.mp h with ⟨kv, hfind, hkv⟩
  have hmem := List.mem_of_find?_eq_some hfind
  have hp : kv.1 = p := by
    have := List.find?_some hfind
    simpa using this
  obtain ⟨k, l⟩ := kv
  simp only at hkv
  subst hkv hp
  exact hmem

theorem removeFirst_subset {lvl lvl' : Level} {o : Order}
    (h : removeFirst lvl o = some lvl') : ∀ m ∈ lvl', m ∈ lvl := by
  induction lvl generalizing lvl' with
  | nil => simp [removeFirst] at h
  | cons m0 ms ih =>
      by_cases hm : m0 = o
      · simp [removeFirst, hm] at h
        subst h
        intro m hm'
        exact List.mem_cons_of_mem _ hm'
      · simp only [removeFirst, if_neg hm] at h
        rcases Option.map_eq_some'.mp h with ⟨ms', hms', rfl⟩
        intro m hm'
        rcases List.mem_cons.mp hm' with rfl | hm''
        · exact List.mem_cons_self _ _
        · exact List.mem_cons_of_mem _ (ih hms' m hm'')

theorem setLevel_wfSide {sd : OrderSide} {s : Side} {p : ℚ} {lvl' : Level}
    (hs : wfSide sd s) (h1 : lvl' ≠ [])
    (h2 : ∀ m ∈ lvl', 0 < m.size ∧ m.side = sd) :
    wfSide sd (setLevel s p lvl') := by
  induction s with
  | nil => simp [setLevel, wfSide]
  | cons kv rest ih =>
      obtain ⟨k, l⟩ := kv
      have hrest : wfSide sd rest := fun kv hkv => hs kv (List.mem_cons_of_mem _ hkv)
      by_cases hk : k = p
      · simp only [setLevel, if_pos hk]
        intro kv hkv
        rcases List.mem_cons.mp hkv with rfl | hkv'
        · exact ⟨h1, h2⟩
        · exact hs kv (List.mem_cons_of_mem _ hkv')
      · simp only [setLevel, if_neg hk]
        intro kv hkv
        rcases List.mem_cons.mp hkv with rfl | hkv'
        · exact hs _ (List.mem_cons_self _ _)
        · exact ih hrest kv hkv'

theorem eraseLevel_wfSide {sd : OrderSide} {s : Side} {p : ℚ}
    (hs : wfSide sd s) : wfSide sd (eraseLevel s p) := by
  induction s with
  | nil => simp [eraseLevel, wfSide]
  | cons kv rest ih =>
      obtain ⟨k, l⟩ := kv
      have hrest : wfSide sd rest := fun kv hkv => hs kv (List.mem_cons_of_mem _ hkv)
      by_cases hk : k = p
      · simp only [eraseLevel, if_pos hk]
        exact hrest
      · simp only [eraseLevel, if_neg hk]
        intro kv hkv
        rcases List.mem_cons.mp hkv with rfl | hkv'
        · exact hs _ (List.mem_cons_self _ _)
        · exact ih hrest kv hkv'

theorem insertOrder_wfSide {sd : OrderSide} {s : Side} (p : ℚ) {o : Order}
    (hs : wfSide sd s) (ho1 : 0 < o.size) (ho2 : o.side = sd) :
    wfSide sd (insertOrder s p o) := by
  induction s with
  | nil =>
      intro kv hkv
      simp only [insertOrder] at hkv
      rcases List.mem_singleton.mp hkv with rfl
      refine ⟨by simp, ?_⟩
      intro m hm
      rcases List.mem_singleton.mp hm with rfl
      exact ⟨ho1, ho2⟩
  | cons kv rest ih =>
      obtain ⟨k, lvl⟩ := kv
      have hhead := hs _ (List.mem_cons_self _ _)
      have hrest : wfSide sd rest := fun kv hkv => hs kv (List.mem_cons_of_mem _ hkv)
      by_cases h1 : p = k
      · simp only [insertOrder, if_pos h1]
        intro kv hkv
        rcases List.mem_cons.mp hkv with rfl | hkv'
        · refine ⟨by simp [hhead.1], ?_⟩
          intro m hm
          rcases List.mem_append.mp hm with hm' | hm'
          · exact hhead.2 m hm'
          · rcases List.mem_singleton.mp hm' with rfl
            exact ⟨ho1, ho2⟩
        · exact hs kv (List.mem_cons_of_mem _ hkv')
      · by_cases h2 : k < p
        · simp only [insertOrder, if_neg h1, if_pos h2]
          intro kv hkv
          rcases List.mem_cons.mp hkv with rfl | hkv'
          · refine ⟨by simp, ?_⟩
            intro m hm
            rcases List.mem_singleton.mp hm with rfl
            exact ⟨ho1, ho2⟩
          · exact hs kv hkv'
        · simp only [insertOrder, if_neg h1, if_neg h2]
          intro kv hkv
          rcases List.mem_cons.mp hkv with rfl | hkv'
          · exact hhead
          · exact ih hrest kv hkv'

/-- The match loop preserves side well-formedness: it only pops orders,
deletes emptied levels, or shrinks the head order to a still-positive size. -/
theorem matchLoop_wfSide (sd : OrderSide) (o : Order) (opp : Side)
    (h : wfSide sd opp) : wfSide sd (matchLoop o opp).2.1 := by
  induction o, opp using matchLoop.induct with
  | case1 o =>
      simpa [matchLoop] using h
  | case2 o tp rest hc =>
      simpa [matchLoop, hc] using h
  | case3 o tp rest hc mo ms hd ih =>
      have h' : wfSide sd (if ms = [] then rest else (tp, ms) :: rest) := by
        intro kv hkv
        by_cases hms : ms = []
        · simp only [hms, if_true, reduceIte] at hkv
          exact h kv (List.mem_cons_of_mem _ hkv)
        · simp only [hms, if_false, reduceIte] at hkv
          rcases List.mem_cons.mp hkv with rfl | hkv'
          · refine ⟨hms, ?_⟩
            intro m hm
            exact (h _ (List.mem_cons_self _ _)).2 m (List.mem_cons_of_mem _ hm)
          · exact h kv (List.mem_cons_of_mem _ hkv')
      have hres := ih h'
      simpa [matchLoop, hc, hd, show mo.size < o.size by linarith [hd]] using hres
  | case4 o tp rest hc mo ms hd1 hd2 =>
      have hnlt : ¬mo.size < o.size := by intro hx; exact hd1 (by linarith)
      have hlt2 : o.size < mo.size := by linarith [hd2]
      have hhead := h _ (List.mem_cons_self _ _)
      simp only [matchLoop, hc, if_true, if_neg hd1, if_pos hd2, reduceIte]
      intro kv hkv
      rcases List.mem_cons.mp hkv with rfl | hkv'
      · refine ⟨by simp, ?_⟩
        intro m hm
        rcases List.mem_cons.mp hm with rfl | hm'
        · constructor
          · simp [update_status]
            linarith
          · have := (hhead.2 mo (List.mem_cons_self _ _)).2
            simpa [update_status] using this
        · exact hhead.2 m (List.mem_cons_of_mem _ hm')
      · exact h kv (List.mem_cons_of_mem _ hkv')
  | case5 o tp rest hc mo ms hd1 hd2 =>
      simp only [matchLoop, hc, if_true, if_neg hd1, if_neg hd2, reduceIte]
      intro kv hkv
      by_cases hms : ms = []
      · simp only [hms, reduceIte] at hkv
        exact h kv (List.mem_cons_of_mem _ hkv)
      · simp only [hms, reduceIte] at hkv
        rcases List.mem_cons.mp hkv with rfl | hkv'
        · refine ⟨hms, ?_⟩
          intro m hm
          exact (h _ (List.mem_cons_self _ _)).2 m (List.mem_cons_of_mem _ hm)
        · exact h kv (List.mem_cons_of_mem _ hkv')
  | case6 o tp tos rest hc =>
      cases tos <;> simpa [matchLoop, hc] using h

/-- The incoming order's residual size never becomes negative. -/
theorem matchLoop_size_nonneg (o : Order) (opp : Side) (h : 0 ≤ o.size) :
    0 ≤ (matchLoop o opp).1.size := by
  induction o, opp using matchLoop.induct with
  | case1 o => simpa [matchLoop] using h
  | case2 o tp rest hc => simpa [matchLoop, hc] using h
  | case3 o tp rest hc mo ms hd ih =>
      have h' : (0:ℚ) ≤ (update_status { o with size := o.size - mo.size }
          OrderStatus.PARTIALLY_FILLED).1.size := by
        simp [update_status]
        linarith [hd]
      have hres := ih h'
      simpa [matchLoop, hc, hd, show mo.size < o.size by linarith [hd]] using hres
  | case4 o tp rest hc mo ms hd1 hd2 =>
      have hnlt : ¬mo.size < o.size := by intro hx; exact hd1 (by linarith)
      simp [matchLoop, hc, hnlt, show o.size < mo.size by linarith [hd2],
        update_status]
  | case5 o tp rest hc mo ms hd1 hd2 =>
      simp [matchLoop, hc,
        show ¬mo.size < o.size by intro hx; exact hd1 (by linarith),
        show ¬o.size < mo.size by intro hx; exact hd2 (by linarith),
        update_status]
  | case6 o tp tos rest hc =>
      cases tos <;> simpa [matchLoop, hc] using h


/-- `add_order` preserves the claimed well-formedness conditions, given a
positive submitted size. -/
theorem add_order_wf {b : LimitOrderBook} {o : Order} (hb : wfClaim b)
    (ho : 0 < o.size) : wfClaim (add_order b o).1 := by
  obtain ⟨hbid, hask⟩ := hb
  have hpost : (update_status { o with order_id := some (new_order_id b) }
      OrderStatus.POSTED).1 =
      { o with order_id := some (new_order_id b), status := OrderStatus.POSTED } := by
    simp [update_status]
  simp only [add_order, lobMatch, hpost]
  set o2 : Order :=
    { o with order_id := some (new_order_id b), status := OrderStatus.POSTED } with ho2
  have ho2side : o2.side = o.side := rfl
  have ho2size : o2.size = o.size := rfl
  by_cases hside : o.side = OrderSide.BUY
  · have hwf := matchLoop_wfSide OrderSide.SELL o2 b.asks hask
    have hnn := matchLoop_size_nonneg o2 b.asks (le_of_lt (show (0:ℚ) < o2.size from ho))
    have hfld := matchLoop_fields o2 b.asks
    by_cases hcr : is_crossing { b with order_count := b.order_count + 1 } o2 = true
    · by_cases hnz : (matchLoop o2 b.asks).1.size = 0
      · constructor
        · simpa [hcr, hside, hnz] using hbid
        · simpa [hcr, hside, hnz] using hwf
      · have hpos : 0 < (matchLoop o2 b.asks).1.size :=
          lt_of_le_of_ne hnn (Ne.symm hnz)
        constructor
        · have hx := insertOrder_wfSide (convert_price (matchLoop o2 b.asks).1)
            hbid hpos (by rw [hfld.2.1, ho2side]; exact hside)
          simpa [hcr, hside, hnz, hfld.2.1, ho2side] using hx
        · simpa [hcr, hside, hnz, hfld.2.1, ho2side] using hwf
    · have hnz : ¬o2.size = 0 := ne_of_gt (show (0:ℚ) < o2.size from ho)
      constructor
      · have hx := insertOrder_wfSide (convert_price o2) hbid
          (show (0:ℚ) < o2.size from ho) (ho2side.trans hside)
        simpa [hcr, hside, hnz, ho2side] using hx
      · simpa [hcr, hside, hnz] using hask
  · have hsd : o.side = OrderSide.SELL := by
      cases hx : o.side
      · exact absurd hx hside
      · rfl
    have hwf := matchLoop_wfSide OrderSide.BUY o2 b.bids hbid
    have hnn := matchLoop_size_nonneg o2 b.bids (le_of_lt (show (0:ℚ) < o2.size from ho))
    have hfld := matchLoop_fields o2 b.bids
    by_cases hcr : is_crossing { b with order_count := b.order_count + 1 } o2 = true
    · by_cases hnz : (matchLoop o2 b.bids).1.size = 0
      · constructor
        · simpa [hcr, hsd, hnz] using hwf
        · simpa [hcr, hsd, hnz] using hask
      · have hpos : 0 < (matchLoop o2 b.bids).1.size :=
          lt_of_le_of_ne hnn (Ne.symm hnz)
        constructor
        · simpa [hcr, hsd, hnz, hfld.2.1, ho2side] using hwf
        · have hx := insertOrder_wfSide (convert_price (matchLoop o2 b.bids).1)
            hask hpos (by rw [hfld.2.1, ho2side]; exact hsd)
          simpa [hcr, hsd, hnz, hfld.2.1, ho2side] using hx
    · have hnz : ¬o2.size = 0 := ne_of_gt (show (0:ℚ) < o2.size from ho)
      constructor
      · simpa [hcr, hsd, hnz] using hbid
      · have hx := insertOrder_wfSide (convert_price o2) hask
          (show (0:ℚ) < o2.size from ho) (ho2side.trans hsd)
        simpa [hcr, hsd, hnz, ho2side] using hx

/-- `remove_order` preserves the claimed well-formedness conditions. -/
theorem remove_order_wf {b b' : LimitOrderBook} {o o' : Order}
    {evs : List OrderUpdate} (hb : wfClaim b)
    (h : remove_order b o = .ok b' o' evs) : wfClaim b' := by
  obtain ⟨hbid, hask⟩ := hb
  simp only [remove_order] at h
  split at h
  · exact absurd h (by simp)
  · rename_i lvl hfind
    split at h
    · exact absurd h (by simp)
    · rename_i lvl' hrem
      have hsub := removeFirst_subset hrem
      split at h <;> rename_i hside <;>
        simp only [RemoveResult.ok.injEq] at h <;>
        rcases h with ⟨hb', -, -⟩ <;> subst hb'
      · -- BUY side
        have hlvl := hbid _ (findLevel_mem (by simpa [hside] using hfind))
        refine ⟨?_, hask⟩
        split
        · exact eraseLevel_wfSide hbid
        · rename_i hne
          exact setLevel_wfSide hbid hne fun m hm => hlvl.2 m (hsub m hm)
      · -- SELL side
        have hlvl := hask _ (findLevel_mem (by simpa [hside] using hfind))
        refine ⟨hbid, ?_⟩
        split
        · exact eraseLevel_wfSide hask
        · rename_i hne
          exact setLevel_wfSide hask hne fun m hm => hlvl.2 m (hsub m hm)

theorem stepA_wf (st : SysState) (a : Action) (hv : validAction a)
    (h : wfClaim st.book) : wfClaim (stepA st a).book := by
  cases a with
  | submit p sz sd ow =>
      exact add_order_wf h hv.2
  | cancel oid =>
      simp only [stepA]
      cases hfo : findOrder st.book oid with
      | none =>
          simp only [hfo]
          exact h
      | some o =>
          simp only [hfo]
          cases hrm : remove_order st.book o with
          | ok b' o' evs =>
              simp only [hrm]
              exact remove_order_wf h hrm
          | unknown b2 o2 =>
              simp only [hrm]
              exact h

/-- C7: book well-formedness is invariant under every submit and cancel with
valid inputs — every price level present in bids or asks is non-empty, every
resting order has positive size, and every order resides in the collection
matching its own side. -/
theorem wf_invariant (acts : List Action) (hv : ∀ a ∈ acts, validAction a) :
    wfClaim (runActions initState acts).book := by
  suffices hgen : ∀ st, wfClaim st.book → wfClaim (runActions st acts).book by
    refine hgen initState ?_
    constructor <;> intro kv hkv <;> simp [initState, bk0, mkBook] at hkv
  induction acts with
  | nil => intro st h; simpa [runActions] using h
  | cons a acts ih =>
      intro st h
      exact ih (fun a ha => hv a (List.mem_cons_of_mem _ ha)) (stepA st a)
        (stepA_wf st a (hv a (List.mem_cons_self _ _)) h)

/-- Witness for C7 on a concrete valid action sequence: a SELL resting, a
crossing BUY partially consuming it, and a cancellation. -/
theorem wf_invariant_witness :
    wfClaim (runActions initState
      [Action.submit 102 1 OrderSide.SELL true,
       Action.submit 102 (1/2) OrderSide.BUY true,
       Action.cancel 11]).book :=
  wf_invariant _ (by
    intro a ha
    simp only [List.mem_cons, List.mem_singleton] at ha
    rcases ha with rfl | rfl | rfl | h <;> first
      | exact ⟨by norm_num, by norm_num⟩
      | exact trivial
      | cases h)


/-! ### C4: cancellation succeeds exactly for resting orders -/

theorem removeFirst_eq_none {lvl : Level} {o : Order} :
    removeFirst lvl o = none ↔ o ∉ lvl := by
  induction lvl with
  | nil => simp [removeFirst]
  | cons m ms ih =>
      by_cases hm : m = o
      · subst hm
        simp [removeFirst]
      · simp [removeFirst, hm, ih, Ne.symm hm]

theorem removeFirst_perm {lvl lvl' : Level} {o : Order}
    (h : removeFirst lvl o = some lvl') : lvl.Perm (o :: lvl') := by
  induction lvl generalizing lvl' with
  | nil => simp [removeFirst] at h
  | cons m ms ih =>
      by_cases hm : m = o
      · simp [removeFirst, hm] at h
        subst h hm
        exact List.Perm.refl _
      · simp only [removeFirst, if_neg hm] at h
        rcases Option.map_eq_some'.mp h with ⟨ms', hms', rfl⟩
        exact ((ih hms').cons m).trans (List.Perm.swap o m ms')

/-- Removing the first occurrence of `o` from the level found under `p`
(deleting the level if emptied) removes exactly one copy of `o` from the
side's resting orders. -/
theorem side_remove_perm {s : Side} {p : ℚ} {lvl lvl' : Level} {o : Order}
    (hf : findLevel s p = some lvl) (hr : removeFirst lvl o = some lvl') :
    (ordersOf s).Perm
      (o :: ordersOf (if lvl' = [] then eraseLevel s p else setLevel s p lvl')) := by
  induction s with
  | nil => simp [findLevel] at hf
  | cons kv rest ih =>
      obtain ⟨k, l⟩ := kv
      by_cases hk : k = p
      · subst hk
        simp [findLevel] at hf
        subst hf
        have hperm := removeFirst_perm hr
        by_cases he : lvl' = []
        · subst he
          simp only [if_pos rfl, eraseLevel, if_pos rfl, ordersOf_cons]
          simpa using hperm.append_right (ordersOf rest)
        · simp only [if_neg he, setLevel, if_pos rfl, ordersOf_cons]
          refine (hperm.append_right (ordersOf rest)).trans ?_
          simp
      · have hf' : findLevel rest p = some lvl := by
          have hkf : (decide (k = p)) = false := by simpa using hk
          simpa [findLevel, List.find?_cons, hkf] using hf
        have hrec := ih hf'
        by_cases he : lvl' = []
        · simp only [if_pos he, eraseLevel, if_neg hk, ordersOf_cons] at hrec ⊢
          exact (hrec.append_left l).trans List.perm_middle
        · simp only [if_neg he, setLevel, if_neg hk, ordersOf_cons] at hrec ⊢
          refine ((hrec.append_left l).trans ?_)
          exact List.perm_middle

/-- C4: `remove_order` succeeds exactly when the order is resting in the
level for its side and stored key; on success it removes exactly that order,
deletes the level if it became empty, sets status CANCELLED and fires the
CANCELLED notification (to a truthy owner); otherwise it raises the
unknown-order error with the book unchanged.  Cancelling the same order
twice, or cancelling a fully filled order, fails with the unknown-order
error (concrete runs below). -/
theorem remove_order_correct :
    (∀ (b : LimitOrderBook) (o : Order),
        ¬IsResting b o → remove_order b o = .unknown b o) ∧
    (∀ (b : LimitOrderBook) (o : Order), IsResting b o →
        ∃ b' evs, remove_order b o =
            .ok b' { o with status := OrderStatus.CANCELLED } evs ∧
          evs = (if o.owner then [⟨{ o with status := OrderStatus.CANCELLED },
              OrderStatus.CANCELLED, o.status⟩] else []) ∧
          (o.side = OrderSide.BUY →
            (ordersOf b.bids).Perm (o :: ordersOf b'.bids) ∧ b'.asks = b.asks) ∧
          (o.side = OrderSide.SELL →
            (ordersOf b.asks).Perm (o :: ordersOf b'.asks) ∧ b'.bids = b.bids)) := by
  constructor
  · intro b o hnr
    simp only [remove_order]
    split
    · rfl
    · rename_i lvl hfind
      split
      · rfl
      · rename_i lvl' hrem
        exfalso
        apply hnr
        refine ⟨lvl, ?_, ?_⟩
        · split at hfind <;> simp_all
        · by_contra hno
          have := removeFirst_eq_none.mpr hno
          simp [this] at hrem
  · intro b o hr
    obtain ⟨lvl, hfind, hmem⟩ := hr
    have hcanc : (update_status o OrderStatus.CANCELLED).1 =
        { o with status := OrderStatus.CANCELLED } := by simp [update_status]
    have hevs : (update_status o OrderStatus.CANCELLED).2 =
        (if o.owner then [⟨{ o with status := OrderStatus.CANCELLED },
            OrderStatus.CANCELLED, o.status⟩] else []) := by
      simp [update_status]
    by_cases hsd : o.side = OrderSide.BUY
    · rw [show (if o.side = OrderSide.BUY then b.bids else b.asks) = b.bids
        from by simp [hsd]] at hfind
      rcases hrem0 : removeFirst lvl o with _ | lvl'
      · exact absurd (removeFirst_eq_none.mp hrem0) (by simpa using hmem)
      · refine ⟨{ b with bids := if lvl' = [] then eraseLevel b.bids (convert_price o)
            else setLevel b.bids (convert_price o) lvl' },
          (update_status o OrderStatus.CANCELLED).2, ?_, hevs, ?_, ?_⟩
        · simp [remove_order, hsd, hfind, hrem0, hcanc]
        · intro _
          exact ⟨side_remove_perm hfind hrem0, rfl⟩
        · intro hsell
          exact absurd (hsd.symm.trans hsell) (by simp)
    · have hsell : o.side = OrderSide.SELL := by
        cases hx : o.side
        · exact absurd hx hsd
        · rfl
      rw [show (if o.side = OrderSide.BUY then b.bids else b.asks) = b.asks
        from by simp [hsd]] at hfind
      rcases hrem0 : removeFirst lvl o with _ | lvl'
      · exact absurd (removeFirst_eq_none.mp hrem0) (by simpa using hmem)
      · refine ⟨{ b with asks := if lvl' = [] then eraseLevel b.asks (convert_price o)
            else setLevel b.asks (convert_price o) lvl' },
          (update_status o OrderStatus.CANCELLED).2, ?_, hevs, ?_, ?_⟩
        · simp [remove_order, hsd, hfind, hrem0, hcanc]
        · intro hbuy
          exact absurd (hsell.symm.trans hbuy) (by simp)
        · intro _
          exact ⟨side_remove_perm hfind hrem0, rfl⟩

/-- Witness for C4: cancelling an order that never rested in a fresh empty
book raises the unknown-order error and leaves the book untouched. -/
theorem remove_order_correct_witness :
    remove_order bk0 (sellAt 5) = .unknown bk0 (sellAt 5) :=
  remove_order_correct.1 bk0 (sellAt 5) (by
    rintro ⟨lvl, hfind, -⟩
    simp [bk0, mkBook, sellAt, findLevel] at hfind)

/-- The SELL of `cancel_twice_and_cancel_filled` as it rests after
submission (id 11, POSTED). -/
def sellPosted11 : Order :=
  { price := 100, size := 1, side := .SELL, owner := true,
    status := .POSTED, order_id := some 11 }

/-- The same order after cancellation. -/
def sellCancelled11 : Order := { sellPosted11 with status := .CANCELLED }

/-- The same order after a full fill. -/
def sellFilled11 : Order :=
  { sellPosted11 with size := 0, status := .FILLED }

/-- The book once its only resting order has been removed. -/
def emptiedBook : LimitOrderBook :=
  { name := "venue", book_id := 1, bids := [], asks := [],
    last_order := some sellPosted11, order_count := 1 }

/-- Double cancellation and cancellation after a full fill, concretely: the
first cancel succeeds (book emptied, CANCELLED fired), the second — and a
cancel of a fully filled order — raise the unknown-order error. -/
theorem cancel_twice_and_cancel_filled :
    remove_order (add_order bk0 (sellAt 100)).1 sellPosted11 =
      .ok emptiedBook sellCancelled11
        [⟨sellCancelled11, .CANCELLED, .POSTED⟩] ∧
    remove_order emptiedBook sellCancelled11 =
      .unknown emptiedBook sellCancelled11 ∧
    (add_order (add_order bk0 (sellAt 100)).1 (buyAt 100)).1.asks = [] ∧
    remove_order (add_order (add_order bk0 (sellAt 100)).1 (buyAt 100)).1
        sellFilled11 =
      .unknown (add_order (add_order bk0 (sellAt 100)).1 (buyAt 100)).1
        sellFilled11 := by
  norm_num [bk0, mkBook, sellAt, buyAt, sellPosted11, sellCancelled11,
    sellFilled11, emptiedBook, add_order, update_status, new_order_id,
    concatId, log10_one, log10_two, is_crossing, lobMatch, matchLoop,
    matchCond, insertOrder, convert_price, remove_order, findLevel,
    removeFirst, eraseLevel, setLevel]


/-! ### C5: FIFO within a price level -/

/-- `m'` is `m` with at most its size (not grown) and status changed: the
result of partially filling the head of a level. -/
def sameOrderReduced (m m' : Order) : Prop :=
  m'.price = m.price ∧ m'.side = m.side ∧ m'.owner = m.owner ∧
  m'.order_id = m.order_id ∧ m'.size ≤ m.size

/-- `lvl'` arises from `lvl` by dropping a prefix of earliest-arrived orders
and possibly reducing the new head: matching never touches an order before
every earlier-arrived order of its level is consumed. -/
def levelReduced (lvl lvl' : Level) : Prop :=
  ∃ n, lvl' = lvl.drop n ∨
    ∃ m ms m', lvl.drop n = m :: ms ∧ sameOrderReduced m m' ∧ lvl' = m' :: ms

/-- `s'` arises from `s` by dropping whole best-key-first levels and possibly
FIFO-reducing the next level. -/
def sideReduced (s s' : Side) : Prop :=
  ∃ j, s' = s.drop j ∨
    ∃ tp lvl rest lvl', s.drop j = (tp, lvl) :: rest ∧ levelReduced lvl lvl' ∧
      s' = (tp, lvl') :: rest

theorem levelReduced_drop_one (mo : Order) (ms : Level) :
    levelReduced (mo :: ms) ms := ⟨1, Or.inl rfl⟩

theorem levelReduced_tail {ms lvl' : Level} (mo : Order)
    (h : levelReduced ms lvl') : levelReduced (mo :: ms) lvl' := by
  obtain ⟨n, hn⟩ := h
  exact ⟨n + 1, by simpa using hn⟩

theorem sideReduced_refl (s : Side) : sideReduced s s := ⟨0, Or.inl rfl⟩

theorem sideReduced_cons {s s' : Side} (kv : ℚ × Level)
    (h : sideReduced s s') : sideReduced (kv :: s) s' := by
  obtain ⟨j, hj⟩ := h
  exact ⟨j + 1, by simpa using hj⟩

theorem sideReduced_head_tailLevel {tp : ℚ} {mo : Order} {ms : Level}
    {rest : Side} {r : Side} (h : sideReduced ((tp, ms) :: rest) r) :
    sideReduced ((tp, mo :: ms) :: rest) r := by
  obtain ⟨j, hj⟩ := h
  cases j with
  | zero =>
      rcases hj with hl | ⟨tp', lvl, rest', lvl', hdrop, hred, hr⟩
      · simp only [List.drop_zero] at hl
        exact ⟨0, Or.inr ⟨tp, mo :: ms, rest, ms, rfl, levelReduced_drop_one mo ms, hl⟩⟩
      · simp only [List.drop_zero, List.cons.injEq, Prod.mk.injEq] at hdrop
        obtain ⟨⟨h1, h2⟩, h3⟩ := hdrop
        subst h1 h3
        subst h2
        exact ⟨0, Or.inr ⟨tp, mo :: ms, rest, lvl', rfl,
          levelReduced_tail mo hred, hr⟩⟩
  | succ j' =>
      rcases hj with hl | ⟨tp', lvl, rest', lvl', hdrop, hred, hr⟩
      · exact ⟨j' + 1, Or.inl (by simpa using hl)⟩
      · exact ⟨j' + 1, Or.inr ⟨tp', lvl, rest', lvl', by simpa using hdrop, hred, hr⟩⟩

/-- The match loop consumes resting orders strictly from the head of the
level it works on: the resulting opposite side is a suffix of the original
(whole levels consumed best-key-first) with at most the head order of the
surviving level partially reduced. -/
theorem matchLoop_fifo (o : Order) (opp : Side) (h : 0 ≤ o.size) :
    sideReduced opp (matchLoop o opp).2.1 := by
  induction o, opp using matchLoop.induct with
  | case1 o =>
      simpa [matchLoop] using sideReduced_refl ([] : Side)
  | case2 o tp rest hc =>
      simpa [matchLoop, hc] using sideReduced_refl ((tp, ([] : Level)) :: rest)
  | case3 o tp rest hc mo ms hd ih =>
      have hlt : mo.size < o.size := by linarith [hd]
      have h' : (0:ℚ) ≤ (update_status { o with size := o.size - mo.size }
          OrderStatus.PARTIALLY_FILLED).1.size := by
        simp [update_status]
        linarith
      have hrec := ih h'
      by_cases hms : ms = []
      · subst hms
        rw [show (if h : ([] : Level) = [] then rest else (tp, ([] : Level)) :: rest)
            = rest from by simp] at hrec
        have := sideReduced_cons (tp, [mo]) hrec
        simpa [matchLoop, hc, hlt] using this
      · rw [show (if h : ms = [] then rest else (tp, ms) :: rest)
            = (tp, ms) :: rest from by simp [hms]] at hrec
        have := @sideReduced_head_tailLevel tp mo ms rest _ hrec
        simpa [matchLoop, hc, hlt, hms] using this
  | case4 o tp rest hc mo ms hd1 hd2 =>
      have hnlt : ¬mo.size < o.size := by intro hx; exact hd1 (by linarith)
      have hlt2 : o.size < mo.size := by linarith [hd2]
      have hred : sameOrderReduced mo (update_status
          { mo with size := mo.size - o.size } OrderStatus.PARTIALLY_FILLED).1 := by
        refine ⟨by simp [update_status], by simp [update_status],
          by simp [update_status], by simp [update_status], ?_⟩
        simp [update_status]
        linarith
      have : sideReduced ((tp, mo :: ms) :: rest)
          ((tp, (update_status { mo with size := mo.size - o.size }
            OrderStatus.PARTIALLY_FILLED).1 :: ms) :: rest) :=
        ⟨0, Or.inr ⟨tp, mo :: ms, rest, _, rfl, ⟨0, Or.inr ⟨mo, ms, _, rfl, hred, rfl⟩⟩, rfl⟩⟩
      simpa [matchLoop, hc, hnlt, hlt2] using this
  | case5 o tp rest hc mo ms hd1 hd2 =>
      have hnlt : ¬mo.size < o.size := by intro hx; exact hd1 (by linarith)
      have hnlt2 : ¬o.size < mo.size := by intro hx; exact hd2 (by linarith)
      by_cases hms : ms = []
      · subst hms
        have : sideReduced ((tp, [mo]) :: rest) rest := sideReduced_cons _ (sideReduced_refl rest)
        simpa [matchLoop, hc, hnlt, hnlt2] using this
      · have : sideReduced ((tp, mo :: ms) :: rest) ((tp, ms) :: rest) :=
          ⟨0, Or.inr ⟨tp, mo :: ms, rest, ms, rfl, levelReduced_drop_one mo ms, rfl⟩⟩
        simpa [matchLoop, hc, hnlt, hnlt2, hms] using this
  | case6 o tp tos rest hc =>
      cases tos <;> simpa [matchLoop, hc] using sideReduced_refl _

/-- With descending sorted keys, the `setdefault`/`append` insertion puts the
new order exactly at the tail of the FIFO queue of its price level. -/
theorem findLevel_insertOrder {s : Side} (hs : sortedSide s) (p : ℚ) (o : Order) :
    findLevel (insertOrder s p o) p = some (((findLevel s p).getD []) ++ [o]) := by
  induction s with
  | nil => simp [insertOrder, findLevel]
  | cons kv rest ih =>
      obtain ⟨k, lvl⟩ := kv
      have hs' : sortedSide rest := by
        simpa [sortedSide] using (List.pairwise_cons.mp hs).2
      have hkeys : ∀ kv' ∈ rest, k > kv'.1 := by
        intro kv' hkv'
        exact (List.pairwise_cons.mp hs).1 kv'.1 (List.mem_map_of_mem _ hkv')
      by_cases h1 : p = k
      · subst h1
        simp [insertOrder, findLevel]
      · by_cases h2 : k < p
        · have hnone : findLevel ((k, lvl) :: rest) p = none := by
            simp only [findLevel, Option.map_eq_none']
            apply List.find?_eq_none.mpr
            intro kv' hkv'
            rcases List.mem_cons.mp hkv' with rfl | hkv''
            · simpa using Ne.symm h1
            · have := hkeys kv' hkv''
              simp only [decide_eq_true_eq]
              intro hq
              rw [hq] at this
              linarith
          rw [hnone]
          simp [insertOrder, h1, h2, findLevel]
        · have hne : ¬(p = k) := h1
          simp only [insertOrder, if_neg hne, if_neg h2]
          have hkp : (decide (k = p)) = false := by
            simpa using Ne.symm hne
          simp only [findLevel, List.find?_cons, hkp]
          exact ih hs'

/-- The book holding two resting SELL orders of size 1 at price 100:
id 11 arrived first, id 12 second. -/
def book2Sells100 : LimitOrderBook :=
  (add_order (add_order bk0 (sellAt 100)).1 (sellAt 100)).1

/-- C5: within one price level matching is strict FIFO — submission appends
at the tail of the level's deque (first conjunct, sorted book), matching
consumes levels from the head only (second conjunct), and concretely a BUY
of size 1 at 100 against two resting SELLs of size 1 at 100 fully fills only
the first-arrived SELL (id 11), leaving the second (id 12) resting
untouched. -/
theorem fifo_within_level :
    (∀ (s : Side) (p : ℚ) (o : Order), sortedSide s →
        findLevel (insertOrder s p o) p = some (((findLevel s p).getD []) ++ [o])) ∧
    (∀ (o : Order) (opp : Side), 0 ≤ o.size →
        sideReduced opp (matchLoop o opp).2.1) ∧
    book2Sells100.asks =
      [(100, [{ price := 100, size := 1, side := .SELL, owner := true,
                status := .POSTED, order_id := some 11 },
              { price := 100, size := 1, side := .SELL, owner := true,
                status := .POSTED, order_id := some 12 }])] ∧
    (add_order book2Sells100 (buyAt 100)).1.asks =
      [(100, [{ price := 100, size := 1, side := .SELL, owner := true,
                status := .POSTED, order_id := some 12 }])] ∧
    (add_order book2Sells100 (buyAt 100)).2.2.1 =
      [⟨{ price := 100, size := 1, side := .BUY, owner := true,
          status := .POSTED, order_id := some 13 }, .POSTED, .CREATED⟩,
       ⟨{ price := 100, size := 0, side := .SELL, owner := true,
          status := .FILLED, order_id := some 11 }, .FILLED, .POSTED⟩,
       ⟨{ price := 100, size := 0, side := .BUY, owner := true,
          status := .FILLED, order_id := some 13 }, .FILLED, .POSTED⟩] := by
  refine ⟨fun s p o hs => findLevel_insertOrder hs p o,
    fun o opp h => matchLoop_fifo o opp h, ?_, ?_, ?_⟩ <;>
  norm_num [book2Sells100, sellAt, buyAt, bk0, mkBook, add_order,
    update_status, new_order_id, concatId, log10_one, log10_two, log10_three,
    is_crossing, lobMatch, matchLoop, matchCond, insertOrder, convert_price]

/-- Witness for C5: the two general conjuncts applied at concrete inputs —
inserting into a one-level sorted side appends at the tail, and running the
loop on a concrete order leaves a reduced side. -/
theorem fifo_within_level_witness :
    findLevel (insertOrder [((100 : ℚ), [sellPosted11])] 100 (sellAt 100)) 100 =
      some [sellPosted11, sellAt 100] ∧
    sideReduced [((100 : ℚ), [sellPosted11])]
      (matchLoop (buyAt 100) [((100 : ℚ), [sellPosted11])]).2.1 := by
  constructor
  · have h := fifo_within_level.1 [((100 : ℚ), [sellPosted11])] 100 (sellAt 100)
      (by simp [sortedSide])
    simpa [findLevel] using h
  · exact fifo_within_level.2.1 (buyAt 100) _ (by norm_num [buyAt])

/-! ### C9: identifier assignment -/

/-- The ids a book hands out across a sequence of submissions. -/
def submitIds (b : LimitOrderBook) : List Order → List Nat
  | [] => []
  | o :: os => new_order_id b :: submitIds (add_order b o).1 os

theorem add_order_book_id (b : LimitOrderBook) (o : Order) :
    (add_order b o).1.book_id = b.book_id := by
  simp only [add_order, lobMatch]
  repeat' split
  all_goals simp

theorem add_order_count (b : LimitOrderBook) (o : Order) :
    (add_order b o).1.order_count = b.order_count + 1 := by
  simp only [add_order, lobMatch]
  repeat' split
  all_goals simp

/-- The returned incoming order carries exactly the id the book assigned. -/
theorem add_order_assigns_id (b : LimitOrderBook) (o : Order) :
    (add_order b o).2.1.order_id = some (new_order_id b) := by
  have hpost : (update_status { o with order_id := some (new_order_id b) }
      OrderStatus.POSTED).1 =
      { o with order_id := some (new_order_id b), status := OrderStatus.POSTED } := by
    simp [update_status]
  simp only [add_order, lobMatch, hpost]
  split
  · split
    · simp [(matchLoop_fields _ _).2.2.2]
    · simp [(matchLoop_fields _ _).2.2.2]
  · simp

theorem concatId_strict_mono {b n m : ℕ} (hb : 1 ≤ b) (hn : 1 ≤ n)
    (h : n < m) : concatId b n < concatId b m := by
  have hdn : Nat.log 10 n ≤ Nat.log 10 m := Nat.log_mono_right (le_of_lt h)
  rcases eq_or_lt_of_le hdn with heq | hlt
  · simp only [concatId, heq]
    omega
  · have h1 : n < 10 ^ (Nat.log 10 n + 1) :=
      Nat.lt_pow_succ_log_self (by norm_num) n
    have hstep : Nat.log 10 n + 2 ≤ Nat.log 10 m + 1 := by omega
    calc concatId b n = b * 10 ^ (Nat.log 10 n + 1) + n := rfl
      _ < b * 10 ^ (Nat.log 10 n + 1) + 10 ^ (Nat.log 10 n + 1) :=
          Nat.add_lt_add_left h1 _
      _ = (b + 1) * 10 ^ (Nat.log 10 n + 1) := by ring
      _ ≤ (10 * b) * 10 ^ (Nat.log 10 n + 1) :=
          Nat.mul_le_mul_right _ (by omega)
      _ = b * 10 ^ (Nat.log 10 n + 2) := by ring
      _ ≤ b * 10 ^ (Nat.log 10 m + 1) :=
          Nat.mul_le_mul_left _ (Nat.pow_le_pow_right (by norm_num) hstep)
      _ ≤ concatId b m := Nat.le_add_right _ _

theorem submitIds_formula (b : LimitOrderBook) (os : List Order) :
    submitIds b os = (List.range os.length).map
      (fun i => concatId b.book_id (b.order_count + i + 1)) := by
  induction os generalizing b with
  | nil => simp [submitIds]
  | cons o os ih =>
      rw [List.length_cons, List.range_succ_eq_map]
      simp only [submitIds, new_order_id, ih, add_order_book_id,
        add_order_count, List.map_cons, List.map_map]
      congr 1
      apply List.map_congr_left
      intro i hi
      show concatId b.book_id (b.order_count + 1 + i + 1) =
        concatId b.book_id (b.order_count + (i + 1) + 1)
      congr 1
      omega

/-- C9 (amended): within a single book the assigned identifiers are strictly
increasing — hence all distinct, never reused — and the id stream depends
only on the book's own `book_id` and private counter (books share no mutable
state), each submission carrying exactly the assigned id.  (Cross-book VALUE
uniqueness fails; see the counterexample.) -/
theorem ids_strictly_increasing_per_book :
    (∀ (b : LimitOrderBook) (os : List Order), 1 ≤ b.book_id →
        (submitIds b os).Pairwise (· < ·)) ∧
    (∀ (b : LimitOrderBook) (os : List Order),
        submitIds b os = (List.range os.length).map
          (fun i => concatId b.book_id (b.order_count + i + 1))) ∧
    (∀ (b : LimitOrderBook) (o : Order),
        (add_order b o).2.1.order_id = some (new_order_id b)) := by
  refine ⟨?_, submitIds_formula, add_order_assigns_id⟩
  intro b os hb
  rw [submitIds_formula]
  exact (List.pairwise_lt_range _).map _
    fun i j hij => concatId_strict_mono hb (by omega) (by omega)

/-- Witness for C9: the first three ids of a fresh book (11 < 12 < 13) are
pairwise increasing. -/
theorem ids_strictly_increasing_per_book_witness :
    (submitIds bk0 [sellAt 100, sellAt 101, sellAt 102]).Pairwise (· < ·) :=
  ids_strictly_increasing_per_book.1 bk0 _ (by norm_num [bk0, mkBook])

/-- Counterexample to cross-book id uniqueness: the 12th id of the first
book ever created (`book_id = 1`) and the 2nd id of the 11th book
(`book_id = 11`) are both `int("1" + "12") = int("11" + "2") = 112`. -/
theorem id_collision_across_books :
    112 ∈ submitIds (mkBook "A" 0).1 (List.replicate 12 (sellAt 1)) ∧
    112 ∈ submitIds (mkBook "B" 10).1 (List.replicate 2 (sellAt 1)) ∧
    (mkBook "A" 0).1.book_id ≠ (mkBook "B" 10).1.book_id := by
  refine ⟨?_, ?_, by norm_num [mkBook]⟩
  · rw [submitIds_formula]
    refine List.mem_map.mpr ⟨11, by simp, ?_⟩
    norm_num [mkBook, concatId_of_two_digits (by norm_num : (10:ℕ) ≤ 12)
      (by norm_num : (12:ℕ) < 100)]
  · rw [submitIds_formula]
    refine List.mem_map.mpr ⟨1, by simp, ?_⟩
    norm_num [mkBook, concatId_of_lt_ten (by norm_num : (2:ℕ) < 10)]

end LOB
